import Mathlib

/-!
# Verification of the go-cache TTL / Lookup / Result cache family

This file is a shallow embedding of the cache implementations of the
mkc188/go-cache repository, together with proofs and refutations of the
specified properties.

Modelling conventions:
* Go `time.Time` instants and `time.Duration` values are both modelled as
  `Int` nanosecond counts; `now.After(t)` is `t < now` (strict), and
  `t.Add(d)` is `t + d`.
* Go maps are modelled as association lists (`List (k × v)`); iteration
  order of a Go map is unspecified, and no proved property depends on the
  list order for map-backed caches.
* Hook callbacks are modelled by event lists returned next to the state.
* `panic` in Go is modelled with `Except String`, carrying the panic text.
-/

set_option autoImplicit false

abbrev Instant := Int
abbrev Dur := Int

deriving instance DecidableEq for Except

/-- `clockPrecision` from the v2 implementation: 100ms in nanoseconds. -/
def clockPrecision : Dur := 100000000

/-- Association-list lookup, first match wins (Go map lookup). -/
def alookup {α β : Type} [DecidableEq α] (k : α) : List (α × β) → Option β
  | [] => none
  | (k2, v) :: rest => if k2 = k then some v else alookup k rest

/-- Association-list update: replace the first binding of `k`, or append one
(Go map assignment; position is irrelevant to map semantics). -/
def aset {α β : Type} [DecidableEq α] (k : α) (v : β) : List (α × β) → List (α × β)
  | [] => [(k, v)]
  | (k2, v2) :: rest => if k2 = k then (k, v) :: rest else (k2, v2) :: aset k v rest

/-- Association-list deletion of every binding of `k` (Go map `delete`). -/
def adel {α β : Type} [DecidableEq α] (k : α) : List (α × β) → List (α × β)
  | [] => []
  | (k2, v2) :: rest => if k2 = k then adel k rest else (k2, v2) :: adel k rest

theorem alookup_aset_self {α β : Type} [DecidableEq α] (k : α) (v : β) (l : List (α × β)) :
    alookup k (aset k v l) = some v := by
  induction l with
  | nil => simp [aset, alookup]
  | cons p rest ih =>
    by_cases h : p.1 = k
    · simp [aset, h, alookup]
    · simp [aset, h, alookup, ih]

/-- Hook events of the plain TTL caches: the callback that fired together
with the key/value it received. -/
inductive HookEv (K V : Type) where
  | invalid (k : K) (v : V)
  | evict (k : K) (v : V)
deriving DecidableEq

/-! ## V2 model: the plain `TTLCache` of `src/unnamed/part_000`

The generic (`[K, V comparable]`) revision, `src/unnamed/part_000`
lines 334-669.  The map `cache map[K]*entry[V]` becomes an association
list; the mutex is elided (every modelled operation is one critical
section).
-/

/-- `entry` (part_000 lines 664-669): cached value plus absolute expiry. -/
structure EntryM (V : Type) where
  value : V
  expiry : Instant
deriving DecidableEq

/-- `TTLCache` state (part_000 lines 334-341): the map and the item TTL.
Hooks are modelled as event output, the sweeper service is external. -/
structure TTL2 (K V : Type) where
  cache : List (K × EntryM V)
  ttl : Dur
deriving DecidableEq

namespace V2

variable {K V : Type} [DecidableEq K] [DecidableEq V]

/-- `GetUnsafe` (part_000 lines 497-505): on hit, refresh
`expiry = now + ttl` and return the value; `Option` stands for the
`(value, ok)` pair. -/
def GetUnsafe (now : Instant) (c : TTL2 K V) (k : K) : Option V × TTL2 K V :=
  match alookup k c.cache with
  | none => (none, c)
  | some item =>
    (some item.value, { c with cache := aset k { item with expiry := now + c.ttl } c.cache })

/-- `PutUnsafe` (part_000 lines 515-528): insert only if absent, expiry
`now + ttl`; no hook is invoked on either path. -/
def PutUnsafe (now : Instant) (c : TTL2 K V) (k : K) (v : V) : Bool × TTL2 K V :=
  match alookup k c.cache with
  | some _ => (false, c)
  | none => (true, { c with cache := aset k ⟨v, now + c.ttl⟩ c.cache })

/-- `HasUnsafe` (part_000 lines 613-616): presence check, no refresh. -/
def HasUnsafe (c : TTL2 K V) (k : K) : Bool :=
  (alookup k c.cache).isSome

/-- `CAS` wrapper (part_000 lines 553-558): the body locks, calls
`HasUnsafe(key)`, unlocks and returns that flag.  It never consults
`cmp`, never writes `swp`, and fires no hook. -/
def CAS (c : TTL2 K V) (key : K) (cmp swp : V) : Bool :=
  HasUnsafe c key

/-- `CASUnsafe` (part_000 lines 561-576): full compare-and-swap logic;
on success fire the invalidate hook on the old value, then replace the
value and reset the expiry. -/
def CASUnsafe (now : Instant) (c : TTL2 K V) (k : K) (cmp swp : V) :
    Bool × TTL2 K V × List (HookEv K V) :=
  match alookup k c.cache with
  | none => (false, c, [])
  | some item =>
    if item.value = cmp then
      (true,
       { c with cache := aset k ⟨swp, now + c.ttl⟩ c.cache },
       [HookEv.invalid k item.value])
    else (false, c, [])

/-- The body of `sweep`'s range loop (part_000 lines 422-427): delete each
entry with `now.After(expiry)` — i.e. `expiry < now`, strictly — firing
the evict hook on it. -/
def sweepList (now : Instant) : List (K × EntryM V) → List (K × EntryM V) × List (HookEv K V)
  | [] => ([], [])
  | (k, e) :: rest =>
    let r := sweepList now rest
    if e.expiry < now then (r.1, HookEv.evict k e.value :: r.2)
    else ((k, e) :: r.1, r.2)

/-- `sweep` (part_000 lines 413-428). -/
def sweep (now : Instant) (c : TTL2 K V) : TTL2 K V × List (HookEv K V) :=
  let r := sweepList now c.cache
  ({ c with cache := r.1 }, r.2)

/-- `SetTTL` (part_000 lines 464-487).  The `update` branch executes
`entry.expiry.Add(diff)` for each entry: Go's `time.Time.Add` returns a
new instant and the loop discards it, so the stored expiries are left
unchanged.  The modelled `let` computes and discards the same value. -/
def SetTTL (c : TTL2 K V) (ttl : Dur) (update : Bool) : Except String (TTL2 K V) :=
  if ttl < clockPrecision * 10 ∧ ttl > 0 then
    Except.error "ttl too close to cache clock precision"
  else
    let diff := ttl - c.ttl
    let cache :=
      if update then
        c.cache.map (fun p => let _ := p.2.expiry + diff; p)
      else c.cache
    Except.ok { cache := cache, ttl := ttl }

end V2

/-! ## V3 model: `TTLCache` of `src/ttl.go`

The ordered-map revision.  `maps.LRUMap[K, *Entry]` keeps entries in
recency order, youngest first; it is modelled as a plain list of entries
in that order (the `go-maps` package is external, only its contract from
the spec is used).  LRU repositioning on reads is not modelled — it never
changes which keys and values are present, which is all the proved
properties consult.
-/

/-- `Entry` (ttl.go lines 11-15). -/
structure Entry3 (K V : Type) where
  key : K
  value : V
  expiry : Instant
deriving DecidableEq

/-- `TTLCache` state (ttl.go lines 18-39): the ordered entry list
(youngest first) and the TTL. -/
structure TTL3 (K V : Type) where
  entries : List (Entry3 K V)
  ttl : Dur
deriving DecidableEq

namespace V3

variable {K V : Type} [DecidableEq K] [DecidableEq V]

/-- `Cache.Get(key)` of the backing map: first entry with this key. -/
def find3 (k : K) : List (Entry3 K V) → Option (Entry3 K V)
  | [] => none
  | e :: rest => if e.key = k then some e else find3 k rest

/-- In-place update through the entry pointer: rewrite the entry stored
under key `k` (ttl.go mutates `item.Value` / `item.Expiry` through
`*Entry`). -/
def update3 (k : K) (f : Entry3 K V → Entry3 K V) (l : List (Entry3 K V)) : List (Entry3 K V) :=
  l.map (fun e => if e.key = k then f e else e)

/-- `Get` (ttl.go lines 193-208): on hit refresh `Expiry = now + TTL`. -/
def Get3 (now : Instant) (c : TTL3 K V) (k : K) : Option V × TTL3 K V :=
  match find3 k c.entries with
  | none => (none, c)
  | some item =>
    (some item.value,
     { c with entries := update3 k (fun e => { e with expiry := now + c.ttl }) c.entries })

/-- `Has` (ttl.go lines 304-309): no refresh. -/
def Has3 (c : TTL3 K V) (k : K) : Bool :=
  (find3 k c.entries).isSome

/-- `Add` (ttl.go lines 211-231): insert only if absent, as the youngest
entry, with `Expiry = now + TTL`; no hook fires. -/
def Add3 (now : Instant) (c : TTL3 K V) (k : K) (v : V) : Bool × TTL3 K V :=
  if Has3 c k then (false, c)
  else (true, { c with entries := Entry3.mk k v (now + c.ttl) :: c.entries })

/-- `CAS` (ttl.go lines 258-277): fail if absent or `cmp` rejects; on
success fire the invalidate hook on the entry, then overwrite value and
expiry through the entry pointer. -/
def CAS3 (now : Instant) (c : TTL3 K V) (k : K) (old new : V) (cmp : V → V → Bool) :
    Bool × TTL3 K V × List (HookEv K V) :=
  match find3 k c.entries with
  | none => (false, c, [])
  | some item =>
    if cmp item.value old then
      (true,
       { c with entries := update3 k (fun e => { e with value := new, expiry := now + c.ttl }) c.entries },
       [HookEv.invalid item.key item.value])
    else (false, c, [])

/-- `SetTTL` (ttl.go lines 171-190): negative TTL panics; the `update`
branch assigns `item.Expiry = item.Expiry.Add(diff)` to every entry. -/
def SetTTL3 (c : TTL3 K V) (ttl : Dur) (update : Bool) : Except String (TTL3 K V) :=
  if ttl < 0 then Except.error "ttl must be greater than zero"
  else
    let diff := ttl - c.ttl
    let entries :=
      if update then c.entries.map (fun e => { e with expiry := e.expiry + diff })
      else c.entries
    Except.ok { entries := entries, ttl := ttl }

/-- The `RangeIf` scan of `Sweep` (ttl.go lines 100-114): walk from the
youngest entry and stop at the first one with `now.After(Expiry)`; the
result is the Go variable `after` (`none` for the sentinel `-1`). -/
def rangeIfIdx (now : Instant) : List (Entry3 K V) → Option Nat
  | [] => none
  | e :: rest =>
    if e.expiry < now then some 0
    else (rangeIfIdx now rest).map (· + 1)

/-- `Sweep` (ttl.go lines 92-135).  With `after = i`, the code allocates
`evicts` with capacity `Len - i - 1` and calls `Truncate` with that
count; `Truncate(n)` drops the `n` oldest entries (the list tail), so
the kept prefix is `take (i+1)` — including the expired entry at index
`i` itself.  Each truncated entry is passed to the evict hook. -/
def Sweep3 (now : Instant) (c : TTL3 K V) : TTL3 K V × List (HookEv K V) :=
  match rangeIfIdx now c.entries with
  | none => (c, [])
  | some i =>
    ({ c with entries := c.entries.take (i + 1) },
     (c.entries.drop (i + 1)).map (fun e => HookEv.evict e.key e.value))

end V3

/-! ## Hook-ordering traces of the wrapped callbacks

Claim C2 is about the order, inside one critical section, between
(a) detaching an entry's aliases from the lookup index and (b) invoking
the user hook.  The two wrapped callbacks are small straight-line loops,
modelled here as the primitive-action trace each one performs.
-/

/-- One primitive action of a wrapped evict/invalidate callback. -/
inductive HookAct where
  | delAlias (lookup key : String)
  | userHook
deriving DecidableEq

/-- The wrapped callback installed by `result.Cache.SetEvictionCallback`
and `SetInvalidateCallback` (src/unnamed/part_001 lines 96-110 and
120-134): first delete every `key -> pkey` alias of the entry from its
lookup map, then — unless the entry is an error result — call the user
hook. -/
def resultWrappedHook (keys : List (String × String)) (isError : Bool) : List HookAct :=
  keys.map (fun k => HookAct.delAlias k.1 k.2) ++
    (if isError then [] else [HookAct.userHook])

/-- The wrapped callback installed by `lookup.Cache.SetEvictionCallback`
and `SetInvalidateCallback` (lookup package, src/ttl/ttl_test.go lines
221-240): call `hook(item.Key, item.Value)` first, then run
`DeleteLookups`.  `aliases` is the alias list the configured
`DeleteLookups` removes from the lookup map. -/
def lookupWrappedHook (aliases : List (String × String)) : List HookAct :=
  HookAct.userHook :: aliases.map (fun a => HookAct.delAlias a.1 a.2)

/-- A trace satisfies the spec's ordering when every alias deletion comes
before every user-hook invocation: once a `userHook` is performed,
nothing but further `userHook`s may follow. -/
def hookAfterDetach : List HookAct → Bool
  | [] => true
  | HookAct.delAlias _ _ :: rest => hookAfterDetach rest
  | HookAct.userHook :: rest => rest.all (fun a => a = HookAct.userHook)

/-! ## Result cache model: `result.Cache` of `src/unnamed/part_001`

The function-valued fields of `result.Cache` (`ignore`, `copy`, and the
key generation of `lookups`) are passed to the operations as explicit
parameters; the remaining state is first-order.  The per-lookup
`pkeys map[string]int64` maps are flattened into one association list
keyed by `(lookup name, key string)`, which is faithful because every
`structKey` owns exactly one `pkeys` map.
-/

/-- A `cacheKey` of the result package: the owning lookup's name
(`key.info.name`) and the encoded key string (`key.key`). -/
structure CKey where
  name : String
  key : String
deriving DecidableEq

/-- Go `error` values that matter to the result cache. -/
inductive GoErr where
  | canceled
  | deadlineExceeded
  | other (msg : String)
deriving DecidableEq

/-- `result` (part_001 lines 354-363): alias keys, cached value, cached
error. -/
structure ResultV (V : Type) where
  keys : List CKey
  value : V
  error : Option GoErr
deriving DecidableEq

/-- First-order state of `result.Cache` (part_001 lines 29-36): the
underlying `ttl.Cache[int64, result[Value]]` entry list (youngest
first), the flattened lookup index, the primary-key counter `next`, the
capacity and the TTL. -/
structure RC (V : Type) where
  entries : List (Entry3 Int (ResultV V))
  pkeys : List ((String × String) × Int)
  next : Int
  cap : Nat
  ttl : Dur
deriving DecidableEq

namespace ResultC

variable {V : Type} [DecidableEq V]

/-- The default ignore predicate installed by `IgnoreErrors(nil)`
(part_001 lines 138-151): `errors.Comparable(err, context.Canceled,
context.DeadlineExceeded)`. -/
def defaultIgnore : GoErr → Bool
  | GoErr.canceled => true
  | GoErr.deadlineExceeded => true
  | GoErr.other _ => false

/-- `IgnoreErrors` (part_001 lines 138-151): a `nil` predicate is
replaced by the default. -/
def IgnoreErrors (given : Option (GoErr → Bool)) : GoErr → Bool :=
  match given with
  | none => defaultIgnore
  | some f => f

/-- Modelled from the spec: `structKey.genKey` lives in the result
package's key file, which is not under `src/` (only its callers are).
Per spec section 4.1 the produced key is the lookup-name prefix, a dot,
and the deterministic encoding of the ordered key parts; key parts are
modelled as already-encoded strings. -/
def genKey (lookup : String) (parts : List String) : String :=
  lookup ++ "." ++ String.join parts

/-- Modelled from the spec: `cacheKeys.drop(name)` of the result
package's key file (not under `src/`) removes from the alias set the
record of the alias belonging to lookup `name` (spec section 4.5
overwrite protocol). -/
def dropKeys (name : String) (ks : List CKey) : List CKey :=
  ks.filter (fun k => k.name ≠ name)

/-- Index lookup `key.info.pkeys[key.key]` on the flattened index. -/
def plookup (pkeys : List ((String × String) × Int)) (name ckey : String) : Option Int :=
  alookup (name, ckey) pkeys

/-- One iteration of the overwrite loop of `store` (part_001 lines
309-329): if the alias already points to a primary key, drop this
lookup's record from the conflicting entry, and delete that entry
outright when it thereby loses all of its aliases.  (When the index is
stale — mapping an alias to an absent primary key — the Go code would
dereference a nil entry; that branch is unreachable from consistent
states and is modelled as a no-op.) -/
def overwriteStep (st : RC V) (k : CKey) : RC V :=
  match plookup st.pkeys k.name k.key with
  | none => st
  | some pkey =>
    match V3.find3 pkey st.entries with
    | none => st
    | some e =>
      if dropKeys k.name e.value.keys = [] then
        { st with entries := st.entries.filter (fun e2 => e2.key ≠ pkey) }
      else
        { st with entries :=
            (st.entries.map (fun e2 =>
              if e2.key = pkey then
                { e2 with value := { e2.value with keys := dropKeys k.name e2.value.keys } }
              else e2)) }

/-- Signed 64-bit bounds of the Go `int64` counter. -/
def maxI64 : Int := 9223372036854775807

def minI64 : Int := -9223372036854775808

/-- Two's-complement wraparound of Go `int64` arithmetic. -/
def wrapI64 (n : Int) : Int :=
  (n + 2 ^ 63) % 2 ^ 64 - 2 ^ 63

/-- The primary-key minting step of `store` (part_001 lines 331-336):
`pkey := c.next; c.next++; if pkey > c.next { panic(...) }`. -/
def mint (next : Int) : Except String (Int × Int) :=
  let pkey := next
  let next2 := wrapI64 (next + 1)
  if pkey > next2 then Except.error "cache primary key overflow"
  else Except.ok (pkey, next2)

/-- User-level hook events of the result cache (the wrapped callbacks
skip the user hook for error results). -/
inductive REv (V : Type) where
  | invalid (v : V)
  | evict (v : V)
deriving DecidableEq

/-- Alias deletion loop of the wrapped callbacks (part_001 lines 97-101):
delete every `key -> pkey` record of the entry from the index. -/
def delAliases (pkeys : List ((String × String) × Int)) (ks : List CKey) :
    List ((String × String) × Int) :=
  ks.foldl (fun m k => adel (k.name, k.key) m) pkeys

/-- The wrapped evict callback of the result cache (part_001 lines
96-110) applied to one entry: detach all aliases, then call the user
hook unless the result is an error. -/
def evictHookR (st : RC V) (e : Entry3 Int (ResultV V)) : RC V × List (REv V) :=
  let st2 := { st with pkeys := delAliases st.pkeys e.value.keys }
  (st2, if e.value.error.isSome then [] else [REv.evict e.value.value])

/-- Modelled from the spec: `go-maps` `LRUMap.SetWithHook` is external
(spec section 6): insert the new entry as youngest and, when the map
exceeds its capacity, evict the oldest entry through the store's evict
hook. -/
def setWithHook (st : RC V) (ent : Entry3 Int (ResultV V)) : RC V × List (REv V) :=
  let st2 := { st with entries := ent :: st.entries }
  if st2.cap < st2.entries.length then
    match st2.entries.getLast? with
    | none => (st2, [])
    | some old => evictHookR { st2 with entries := st2.entries.dropLast } old
  else (st2, [])

/-- `store` (part_001 lines 308-352): run the overwrite loop over the new
result's keys, mint the primary key (panicking on wraparound), register
every alias against the new primary key, then insert the entry with
`Expiry = now + TTL`. -/
def storeR (now : Instant) (st : RC V) (res : ResultV V) :
    Except String (RC V × List (REv V)) :=
  let st1 := res.keys.foldl overwriteStep st
  match mint st1.next with
  | Except.error msg => Except.error msg
  | Except.ok (pkey, next2) =>
    let st2 := { st1 with
      next := next2,
      pkeys := res.keys.foldl (fun m k => aset (k.name, k.key) pkey m) st1.pkeys }
    Except.ok (setWithHook st2 (Entry3.mk pkey res (now + st2.ttl)))

/-- `Load` (part_001 lines 154-223).  The loader is modelled by the
outcome it would produce; the returned `Bool` records whether it was
invoked.  The outer `Except String` carries Go panics (primary-key
overflow inside `store`; nil dereference on a stale index hit). -/
def LoadR [Inhabited V] (now : Instant) (ignore : GoErr → Bool) (copy : V → V)
    (genKeys : V → List CKey) (st : RC V) (name ckey : String)
    (loader : Except GoErr V) :
    Except String (Except GoErr V × RC V × Bool × List (REv V)) :=
  match plookup st.pkeys name ckey with
  | some pkey =>
    match V3.find3 pkey st.entries with
    | none => Except.error "nil pointer dereference"
    | some e =>
      match e.value.error with
      | some err => Except.ok (Except.error err, st, false, [])
      | none => Except.ok (Except.ok (copy e.value.value), st, false, [])
  | none =>
    match loader with
    | Except.error err =>
      if ignore err then Except.ok (Except.error err, st, true, [])
      else
        match storeR now st (ResultV.mk [CKey.mk name ckey] default (some err)) with
        | Except.error m => Except.error m
        | Except.ok (st2, evs) => Except.ok (Except.error err, st2, true, evs)
    | Except.ok v =>
      match storeR now st (ResultV.mk (genKeys v) v none) with
      | Except.error m => Except.error m
      | Except.ok (st2, evs) => Except.ok (Except.ok (copy v), st2, true, evs)

/-- `Has` (part_001 lines 253-279): a lookup hit whose cached result
carries an error reports `false`; only non-error results count. -/
def HasR (st : RC V) (name ckey : String) : Except String Bool :=
  match plookup st.pkeys name ckey with
  | none => Except.ok false
  | some pkey =>
    match V3.find3 pkey st.entries with
    | none => Except.error "nil pointer dereference"
    | some e => Except.ok e.value.error.isNone

/-- `Store` (part_001 lines 226-250): run the user persist action; on
failure return its error with nothing cached; on success cache
`copy(value)` under the generated keys and fire the user invalidate
hook with the original value. -/
def StoreUser (now : Instant) (copy : V → V) (genKeys : V → List CKey)
    (st : RC V) (v : V) (persist : Option GoErr) :
    Except String (Option GoErr × RC V × List (REv V)) :=
  match persist with
  | some err => Except.ok (some err, st, [])
  | none =>
    match storeR now st (ResultV.mk (genKeys v) (copy v) none) with
    | Except.error m => Except.error m
    | Except.ok (st2, evs) => Except.ok (none, st2, evs ++ [REv.invalid v])

/-- Lifetime iteration of the minting step: perform `n` stores' worth of
mints from counter state `next`, collecting the minted keys; `none`
when some mint panics. -/
def mintIter (next : Int) : Nat → Option (List Int × Int)
  | 0 => some ([], next)
  | n + 1 =>
    match mint next with
    | Except.error _ => none
    | Except.ok (p, nx) =>
      match mintIter nx n with
      | none => none
      | some (ps, fin) => some (p :: ps, fin)

end ResultC

/-! ## Claim C1 -/

/-- A v2 cache holding value `1` under key `"k"`. -/
def c1cacheV2 : TTL2 String Nat :=
  { cache := [("k", { value := 1, expiry := 1000 })], ttl := 300000000000 }

/-- The same cache content in the v3 representation. -/
def c1cacheV3 : TTL3 String Nat :=
  { entries := [{ key := "k", value := 1, expiry := 1000 }], ttl := 300000000000 }

/-- C1: the claimed CAS contract fails on the v2 wrapper.  With `"k"`
present holding `1` and a comparison value `2` that does not match, the
part_000 `CAS` wrapper still returns `true` — it is only an existence
check — while the full logic (`CASUnsafe`, and the v3 `CAS` of
src/ttl.go) correctly fails, mutates nothing and fires no hook. -/
theorem C1_cas_wrapper_is_has_only :
    (V2.CAS c1cacheV2 "k" 2 3 = true ∧ (1 : Nat) ≠ 2) ∧
    V2.CASUnsafe 500 c1cacheV2 "k" 2 3 = (false, c1cacheV2, []) ∧
    V3.CAS3 500 c1cacheV3 "k" 2 3 (fun a b => decide (a = b)) = (false, c1cacheV3, []) := by
  decide

/-! ## Claim C5 -/

/-- A v2 cache with one entry whose expiry is the instant `100`. -/
def c5cacheV2 : TTL2 String Nat :=
  { cache := [("k", { value := 7, expiry := 100 })], ttl := 5000000000 }

/-- The same content in the v3 representation. -/
def c5cacheV3 : TTL3 String Nat :=
  { entries := [{ key := "k", value := 7, expiry := 100 }], ttl := 5000000000 }

/-- C5: `SetTTL(new, true)` must shift every expiry by the delta
(`20s - 5s = 15s` here).  The part_000 revision executes
`entry.expiry.Add(diff)` and discards the result, leaving the expiry at
`100`; the src/ttl.go revision assigns the sum and yields
`100 + 15s`. -/
theorem C5_setttl_shift_discarded :
    V2.SetTTL c5cacheV2 20000000000 true =
      Except.ok { cache := [("k", { value := 7, expiry := 100 })], ttl := 20000000000 } ∧
    V3.SetTTL3 c5cacheV3 20000000000 true =
      Except.ok { entries := [{ key := "k", value := 7, expiry := 15000000100 }], ttl := 20000000000 } := by
  decide

/-! ## Claim C6 -/

/-- A v2 cache with a single entry expiring exactly at instant `100`. -/
def c6cache : TTL2 String Nat :=
  { cache := [("x", { value := 7, expiry := 100 })], ttl := 5000000000 }

/-- C6 counterexample: the claim says every entry with `expiry ≤ now` is
removed by the sweep.  At `now = 100` the entry with `expiry = 100`
satisfies `expiry ≤ now`, yet the sweep (which tests the strict
`now.After(expiry)`) removes nothing and fires no evict hook. -/
theorem C6_counterexample :
    (100 : Instant) ≤ 100 ∧ V2.sweep 100 c6cache = (c6cache, []) := by
  decide

/-! ## Claim C2 -/

/-- C2 counterexample: in the Lookup Cache, invalidating an entry that
has the alias `("key2", "key12")` runs the user hook first and only then
deletes the alias from the lookup map — the hook is ordered before a
detachment, contrary to the claim. -/
theorem C2_counterexample :
    hookAfterDetach (lookupWrappedHook [("key2", "key12")]) = false := by
  decide

theorem hookAfterDetach_append_dels (dels : List (String × String)) (tail : List HookAct) :
    hookAfterDetach (dels.map (fun k => HookAct.delAlias k.1 k.2) ++ tail) =
      hookAfterDetach tail := by
  induction dels with
  | nil => rfl
  | cons d rest ih => simpa [hookAfterDetach] using ih

/-- C2 amended: the Result Cache's wrapped callbacks delete every alias
from the lookup index before invoking the user hook, for every entry;
the Lookup Cache's wrapped callbacks invoke the user hook first, so for
any entry with at least one alias the ordering of the claim is
violated. -/
theorem C2_amended :
    (∀ keys isErr, hookAfterDetach (resultWrappedHook keys isErr) = true) ∧
    (∀ aliases : List (String × String), aliases ≠ [] →
      hookAfterDetach (lookupWrappedHook aliases) = false) := by
  constructor
  · intro keys isErr
    rw [resultWrappedHook, hookAfterDetach_append_dels]
    cases isErr <;> simp [hookAfterDetach]
  · intro aliases h
    match aliases with
    | [] => exact absurd rfl h
    | a :: rest => simp [lookupWrappedHook, hookAfterDetach]

/-- Witness for C2 amended at concrete traces. -/
theorem C2_amended_witness :
    hookAfterDetach (resultWrappedHook [("Field1", "Field1.a")] false) = true ∧
    ([("key3", "key13")] : List (String × String)) ≠ [] ∧
    hookAfterDetach (lookupWrappedHook [("key3", "key13")]) = false :=
  ⟨C2_amended.1 _ _, by decide, C2_amended.2 _ (by decide)⟩

/-! ## Claim C7 -/

/-- C7: `Put` on an absent key inserts and returns `true`, after which the
key is present with the inserted value; a second `Put` on the same key
returns `false` and leaves the whole state — value and expiry included —
untouched.  Proved for both revisions (`PutUnsafe` of part_000 and `Add`
of src/ttl.go); neither operation produces hook events by
construction. -/
theorem C7_put_insert_only {K V : Type} [DecidableEq K] [DecidableEq V]
    (now1 now2 now3 : Instant) (c : TTL2 K V) (c3 : TTL3 K V) (k : K) (v v2 : V)
    (h2 : V2.HasUnsafe c k = false) (h3 : V3.Has3 c3 k = false) :
    ((V2.PutUnsafe now1 c k v).1 = true ∧
     V2.HasUnsafe (V2.PutUnsafe now1 c k v).2 k = true ∧
     (V2.GetUnsafe now2 (V2.PutUnsafe now1 c k v).2 k).1 = some v ∧
     V2.PutUnsafe now3 (V2.PutUnsafe now1 c k v).2 k v2 = (false, (V2.PutUnsafe now1 c k v).2)) ∧
    ((V3.Add3 now1 c3 k v).1 = true ∧
     V3.Has3 (V3.Add3 now1 c3 k v).2 k = true ∧
     (V3.Get3 now2 (V3.Add3 now1 c3 k v).2 k).1 = some v ∧
     V3.Add3 now3 (V3.Add3 now1 c3 k v).2 k v2 = (false, (V3.Add3 now1 c3 k v).2)) := by
  have h2n : alookup k c.cache = none := by
    unfold V2.HasUnsafe at h2
    cases hx : alookup k c.cache with
    | none => rfl
    | some e => rw [hx] at h2; simp at h2
  have h3n : V3.find3 k c3.entries = none := by
    unfold V3.Has3 at h3
    cases hx : V3.find3 k c3.entries with
    | none => rfl
    | some e => rw [hx] at h3; simp at h3
  constructor
  · refine ⟨?_, ?_, ?_, ?_⟩
    · simp [V2.PutUnsafe, h2n]
    · simp [V2.PutUnsafe, h2n, V2.HasUnsafe, alookup_aset_self]
    · simp [V2.PutUnsafe, h2n, V2.GetUnsafe, alookup_aset_self]
    · simp [V2.PutUnsafe, h2n, alookup_aset_self]
  · refine ⟨?_, ?_, ?_, ?_⟩
    · simp [V3.Add3, V3.Has3, h3n]
    · simp [V3.Add3, V3.Has3, h3n, V3.find3]
    · simp [V3.Add3, V3.Has3, h3n, V3.Get3, V3.find3]
    · simp [V3.Add3, V3.Has3, h3n, V3.find3]

/-- Witness for C7 at a concrete empty cache. -/
theorem C7_witness :
    V2.HasUnsafe ({ cache := [], ttl := 5000000000 } : TTL2 String Nat) "a" = false ∧
    V3.Has3 ({ entries := [], ttl := 5000000000 } : TTL3 String Nat) "a" = false ∧
    (((V2.PutUnsafe 0 ({ cache := [], ttl := 5000000000 } : TTL2 String Nat) "a" 1).1 = true ∧
      V2.HasUnsafe (V2.PutUnsafe 0 ({ cache := [], ttl := 5000000000 } : TTL2 String Nat) "a" 1).2 "a" = true ∧
      (V2.GetUnsafe 7 (V2.PutUnsafe 0 ({ cache := [], ttl := 5000000000 } : TTL2 String Nat) "a" 1).2 "a").1 = some 1 ∧
      V2.PutUnsafe 9 (V2.PutUnsafe 0 ({ cache := [], ttl := 5000000000 } : TTL2 String Nat) "a" 1).2 "a" 2 =
        (false, (V2.PutUnsafe 0 ({ cache := [], ttl := 5000000000 } : TTL2 String Nat) "a" 1).2)) ∧
     ((V3.Add3 0 ({ entries := [], ttl := 5000000000 } : TTL3 String Nat) "a" 1).1 = true ∧
      V3.Has3 (V3.Add3 0 ({ entries := [], ttl := 5000000000 } : TTL3 String Nat) "a" 1).2 "a" = true ∧
      (V3.Get3 7 (V3.Add3 0 ({ entries := [], ttl := 5000000000 } : TTL3 String Nat) "a" 1).2 "a").1 = some 1 ∧
      V3.Add3 9 (V3.Add3 0 ({ entries := [], ttl := 5000000000 } : TTL3 String Nat) "a" 1).2 "a" 2 =
        (false, (V3.Add3 0 ({ entries := [], ttl := 5000000000 } : TTL3 String Nat) "a" 1).2))) :=
  ⟨by decide, by decide, C7_put_insert_only 0 7 9 _ _ "a" 1 2 (by decide) (by decide)⟩

/-! ## Claim C8 -/

theorem wrapI64_lb (n : Int) : ResultC.minI64 ≤ ResultC.wrapI64 n := by
  have h := Int.emod_nonneg (n + 2 ^ 63) (by norm_num : ((2 : Int) ^ 64) ≠ 0)
  simp only [ResultC.wrapI64, ResultC.minI64]
  omega

theorem mint_ok (next : Int) (h1 : ResultC.minI64 ≤ next) (h2 : next < ResultC.maxI64) :
    ResultC.mint next = Except.ok (next, next + 1) := by
  have hmod : (next + 1 + 2 ^ 63) % 2 ^ 64 = next + 1 + 2 ^ 63 := by
    apply Int.emod_eq_of_lt
    · simp only [ResultC.minI64] at h1
      omega
    · simp only [ResultC.maxI64] at h2
      omega
  simp only [ResultC.mint, ResultC.wrapI64, hmod]
  rw [if_neg (by omega)]
  congr 1
  rw [Prod.mk.injEq]
  constructor
  · rfl
  · omega

theorem mint_ok_inv (next p nx : Int) (h : ResultC.mint next = Except.ok (p, nx)) :
    p = next ∧ next < nx := by
  simp only [ResultC.mint] at h
  by_cases hc : next > ResultC.wrapI64 (next + 1)
  · rw [if_pos hc] at h; exact absurd h (by simp)
  · rw [if_neg hc] at h
    have hp : p = next ∧ nx = ResultC.wrapI64 (next + 1) := by
      have := h; injection this with h1; injection h1 with ha hb; exact ⟨ha.symm, hb.symm⟩
    have hne : ResultC.wrapI64 (next + 1) ≠ next := by
      simp only [ResultC.wrapI64]
      omega
    obtain ⟨hp1, hp2⟩ := hp
    subst hp1; subst hp2
    omega

theorem mintIter_mono (n : Nat) : ∀ (next : Int) (ps : List Int) (fin : Int),
    ResultC.mintIter next n = some (ps, fin) →
    ps.Pairwise (· < ·) ∧ ∀ p ∈ ps, next ≤ p := by
  induction n with
  | zero =>
    intro next ps fin h
    simp only [ResultC.mintIter, Option.some.injEq, Prod.mk.injEq] at h
    obtain ⟨h1, _⟩ := h
    subst h1
    exact ⟨List.Pairwise.nil, by intro p hp; exact absurd hp (List.not_mem_nil p)⟩
  | succ n ih =>
    intro next ps fin h
    simp only [ResultC.mintIter] at h
    split at h
    · exact absurd h (by simp)
    · rename_i p nx hmm1
      split at h
      · exact absurd h (by simp)
      · rename_i ps2 fin2 hit
        simp only [Option.some.injEq, Prod.mk.injEq] at h
        obtain ⟨hps, _⟩ := h
        obtain ⟨hp, hlt⟩ := mint_ok_inv next p nx hmm1
        obtain ⟨hpw, hbd⟩ := ih nx ps2 fin2 hit
        subst hps
        subst hp
        refine ⟨List.Pairwise.cons ?_ hpw, ?_⟩
        · intro q hq
          have := hbd q hq
          omega
        · intro q hq
          rcases List.mem_cons.mp hq with hq1 | hq2
          · omega
          · have := hbd q hq2
            omega

/-- C8: every successful run of `n` consecutive primary-key mints yields
a strictly increasing key sequence, and the mint performed at the
wrapped-around boundary (`next = 2^63 - 1`, so `next++` overflows)
panics with the overflow message instead of producing a key. -/
theorem C8_counter_monotone (next : Int) (n : Nat) :
    (∀ ps fin, ResultC.mintIter next n = some (ps, fin) → ps.Pairwise (· < ·)) ∧
    ResultC.mint ResultC.maxI64 = Except.error "cache primary key overflow" := by
  constructor
  · intro ps fin h
    exact (mintIter_mono n next ps fin h).1
  · decide

/-- Witness for C8: three mints from the zero-initialized counter. -/
theorem C8_witness :
    ResultC.mintIter 0 3 = some ([0, 1, 2], 3) ∧
    ([0, 1, 2] : List Int).Pairwise (· < ·) :=
  ⟨by decide, (C8_counter_monotone 0 3).1 [0, 1, 2] 3 (by decide)⟩

/-! ## Claim C6, amended -/

theorem sweepList_kept_sub {K V : Type} [DecidableEq K] [DecidableEq V] (now : Instant) :
    ∀ l : List (K × EntryM V), ∀ p ∈ (V2.sweepList now l).1, p ∈ l := by
  intro l
  induction l with
  | nil => intro p hp; simpa [V2.sweepList] using hp
  | cons q rest ih =>
    intro p hp
    obtain ⟨k2, e2⟩ := q
    by_cases hexp : e2.expiry < now
    · simp only [V2.sweepList, if_pos hexp] at hp
      exact List.mem_cons_of_mem _ (ih p hp)
    · simp only [V2.sweepList, if_neg hexp, List.mem_cons] at hp
      rcases hp with h | h
      · exact h ▸ List.mem_cons_self _ _
      · exact List.mem_cons_of_mem _ (ih p h)

theorem sweepList_count_zero {K V : Type} [DecidableEq K] [DecidableEq V]
    (now : Instant) (k : K) (v : V) :
    ∀ l : List (K × EntryM V), (∀ p ∈ l, p.1 ≠ k) →
      (V2.sweepList now l).2.count (HookEv.evict k v) = 0 := by
  intro l
  induction l with
  | nil => intro _; simp [V2.sweepList]
  | cons q rest ih =>
    intro hp
    obtain ⟨k2, e2⟩ := q
    have hk2 : k2 ≠ k := hp (k2, e2) (List.mem_cons_self _ _)
    have hr := ih (fun q2 hq => hp q2 (List.mem_cons_of_mem _ hq))
    by_cases hexp : e2.expiry < now
    · simp [V2.sweepList, if_pos hexp, List.count_cons, hr, Ne.symm hk2]
    · simp [V2.sweepList, if_neg hexp, hr]

theorem sweep_entry_cases {K V : Type} [DecidableEq K] [DecidableEq V] (now : Instant) :
    ∀ l : List (K × EntryM V), (l.map Prod.fst).Nodup → ∀ k e, (k, e) ∈ l →
      (e.expiry < now →
        (k, e) ∉ (V2.sweepList now l).1 ∧
        (V2.sweepList now l).2.count (HookEv.evict k e.value) = 1) ∧
      (¬ e.expiry < now →
        (k, e) ∈ (V2.sweepList now l).1 ∧
        (V2.sweepList now l).2.count (HookEv.evict k e.value) = 0) := by
  intro l
  induction l with
  | nil => intro _ k e hm; exact absurd hm (List.not_mem_nil _)
  | cons q rest ih =>
    intro hnd k e hm
    obtain ⟨k2, e2⟩ := q
    have hnd2 : (rest.map Prod.fst).Nodup := (List.nodup_cons.mp hnd).2
    have hk2r : k2 ∉ rest.map Prod.fst := (List.nodup_cons.mp hnd).1
    rcases List.mem_cons.mp hm with hhd | htl
    · obtain ⟨hk, he⟩ := Prod.mk.injEq .. ▸ hhd
      subst hk; subst he
      have hrest_ne : ∀ p ∈ rest, p.1 ≠ k := by
        intro p hp hcontra
        exact hk2r (hcontra ▸ List.mem_map_of_mem Prod.fst hp)
      have hc0 := sweepList_count_zero now k e.value rest hrest_ne
      have hsub := sweepList_kept_sub (K := K) (V := V) now rest
      constructor
      · intro hexp
        refine ⟨?_, ?_⟩
        · simp only [V2.sweepList, if_pos hexp]
          intro hmem
          have := hsub _ hmem
          exact hrest_ne _ this rfl
        · simp [V2.sweepList, if_pos hexp, List.count_cons, hc0]
      · intro hexp
        refine ⟨?_, ?_⟩
        · simp [V2.sweepList, if_neg hexp]
        · simp [V2.sweepList, if_neg hexp, hc0]
    · have hkne : k ≠ k2 := by
        intro hcontra
        exact hk2r (hcontra ▸ List.mem_map_of_mem Prod.fst htl)
      have hih := ih hnd2 k e htl
      constructor
      · intro hexp
        obtain ⟨hnm, hcnt⟩ := hih.1 hexp
        refine ⟨?_, ?_⟩
        · by_cases hexp2 : e2.expiry < now
          · simpa only [V2.sweepList, if_pos hexp2] using hnm
          · simp only [V2.sweepList, if_neg hexp2, List.mem_cons]
            rintro (hc | hc)
            · exact hkne (congrArg Prod.fst hc)
            · exact hnm hc
        · by_cases hexp2 : e2.expiry < now
          · simp [V2.sweepList, if_pos hexp2, List.count_cons, hcnt, hkne]
          · simpa only [V2.sweepList, if_neg hexp2] using hcnt
      · intro hexp
        obtain ⟨hmem, hcnt⟩ := hih.2 hexp
        refine ⟨?_, ?_⟩
        · by_cases hexp2 : e2.expiry < now
          · simpa only [V2.sweepList, if_pos hexp2] using hmem
          · simp only [V2.sweepList, if_neg hexp2, List.mem_cons]
            exact Or.inr hmem
        · by_cases hexp2 : e2.expiry < now
          · simp [V2.sweepList, if_pos hexp2, List.count_cons, hcnt, hkne]
          · simpa only [V2.sweepList, if_neg hexp2] using hcnt

theorem rangeIfIdx_expired {K V : Type} [DecidableEq K] [DecidableEq V] (now : Instant) :
    ∀ (l : List (Entry3 K V)) (i : Nat), V3.rangeIfIdx now l = some i →
      ∃ e, l[i]? = some e ∧ e.expiry < now := by
  intro l
  induction l with
  | nil => intro i h; simp [V3.rangeIfIdx] at h
  | cons a rest ih =>
    intro i h
    by_cases hexp : a.expiry < now
    · simp only [V3.rangeIfIdx, if_pos hexp, Option.some.injEq] at h
      subst h
      exact ⟨a, by simp, hexp⟩
    · simp only [V3.rangeIfIdx, if_neg hexp, Option.map_eq_some'] at h
      obtain ⟨j, hj, hji⟩ := h
      obtain ⟨e, he, hee⟩ := ih j hj
      subst hji
      exact ⟨e, by simpa using he, hee⟩

theorem mem_take_succ_of_getElem {α : Type} :
    ∀ (l : List α) (i : Nat) (e : α), l[i]? = some e → e ∈ l.take (i + 1) := by
  intro l
  induction l with
  | nil => intro i e h; simp at h
  | cons a rest ih =>
    intro i e h
    match i with
    | 0 =>
      simp only [List.getElem?_cons_zero, Option.some.injEq] at h
      simp [h]
    | j + 1 =>
      simp only [List.getElem?_cons_succ] at h
      simpa [List.take_succ_cons] using Or.inr (ih j e h)

/-- C6 amended: for the map-backed sweep of part_000, every entry with
`expiry < now` (strictly) is removed and the evict hook fires exactly
once for it, and every entry with `expiry ≥ now` remains with its value
and expiry untouched.  For the ordered `Sweep` of src/ttl.go, a tick
that finds expired entries keeps exactly the prefix up to and including
the first (youngest) expired entry: that expired entry survives the
tick, and a tick that finds none changes nothing. -/
theorem C6_amended {K V : Type} [DecidableEq K] [DecidableEq V] (now : Instant)
    (c : TTL2 K V) (c3 : TTL3 K V) (hnd : (c.cache.map Prod.fst).Nodup) :
    (∀ k e, (k, e) ∈ c.cache →
      (e.expiry < now →
        (k, e) ∉ (V2.sweep now c).1.cache ∧
        (V2.sweep now c).2.count (HookEv.evict k e.value) = 1) ∧
      (¬ e.expiry < now →
        (k, e) ∈ (V2.sweep now c).1.cache ∧
        (V2.sweep now c).2.count (HookEv.evict k e.value) = 0)) ∧
    (∀ i, V3.rangeIfIdx now c3.entries = some i →
      (∀ e, e ∈ (V3.Sweep3 now c3).1.entries ↔ e ∈ c3.entries.take (i + 1)) ∧
      (∀ e, c3.entries[i]? = some e → e.expiry < now ∧ e ∈ (V3.Sweep3 now c3).1.entries)) ∧
    (V3.rangeIfIdx now c3.entries = none → V3.Sweep3 now c3 = (c3, [])) := by
  refine ⟨?_, ?_, ?_⟩
  · intro k e hm
    exact sweep_entry_cases now c.cache hnd k e hm
  · intro i hi
    constructor
    · intro e
      simp [V3.Sweep3, hi]
    · intro e he
      obtain ⟨e0, he0, hexp0⟩ := rangeIfIdx_expired now c3.entries i hi
      have : e0 = e := by rw [he0] at he; exact Option.some.injEq .. ▸ he
      subst this
      refine ⟨hexp0, ?_⟩
      simp only [V3.Sweep3, hi]
      exact mem_take_succ_of_getElem c3.entries i e0 he0
  · intro hn
    simp [V3.Sweep3, hn]

/-- Witness for C6 amended at a concrete two-entry cache: at `now = 100`,
the v2 sweep evicts the entry expiring at `50` exactly once and keeps
the entry expiring at `200`; the v3 ordered sweep, facing the same
content youngest-first with the expired entry first, keeps it. -/
theorem C6_amended_witness :
    ((["a", "b"] : List String).Nodup ∧
      (("a", ({ value := 1, expiry := 50 } : EntryM Nat)) ∉
        (V2.sweep 100 { cache := [("a", { value := 1, expiry := 50 }), ("b", { value := 2, expiry := 200 })], ttl := 5000000000 }).1.cache) ∧
      (V2.sweep 100 ({ cache := [("a", { value := 1, expiry := 50 }), ("b", { value := 2, expiry := 200 })], ttl := 5000000000 } : TTL2 String Nat)).2.count (HookEv.evict "a" 1) = 1) ∧
    (({ key := "x", value := 5, expiry := 50 } : Entry3 String Nat) ∈
      (V3.Sweep3 100 { entries := [{ key := "x", value := 5, expiry := 50 }], ttl := 5000000000 }).1.entries) := by
  have h := C6_amended (K := String) (V := Nat) 100
    { cache := [("a", { value := 1, expiry := 50 }), ("b", { value := 2, expiry := 200 })], ttl := 5000000000 }
    { entries := [{ key := "x", value := 5, expiry := 50 }], ttl := 5000000000 }
    (by decide)
  refine ⟨⟨by decide, ?_, ?_⟩, ?_⟩
  · exact ((h.1 "a" { value := 1, expiry := 50 } (by decide)).1 (by decide)).1
  · exact ((h.1 "a" { value := 1, expiry := 50 } (by decide)).1 (by decide)).2
  · exact ((h.2.1 0 (by decide)).2 { key := "x", value := 5, expiry := 50 } (by decide)).2

/-! ## Claim C3 -/

theorem find3_none {K V : Type} [DecidableEq K] (p : K) :
    ∀ l : List (Entry3 K V), V3.find3 p l = none → ∀ e ∈ l, e.key ≠ p := by
  intro l
  induction l with
  | nil => intro _ e he; exact absurd he (List.not_mem_nil _)
  | cons a rest ih =>
    intro h e he
    by_cases hk : a.key = p
    · simp [V3.find3, hk] at h
    · simp only [V3.find3, if_neg hk] at h
      rcases List.mem_cons.mp he with h1 | h1
      · exact h1 ▸ hk
      · exact ih h e h1

theorem find3_some {K V : Type} [DecidableEq K] (p : K) :
    ∀ (l : List (Entry3 K V)) (e : Entry3 K V), V3.find3 p l = some e → e ∈ l ∧ e.key = p := by
  intro l
  induction l with
  | nil => intro e h; simp [V3.find3] at h
  | cons a rest ih =>
    intro e h
    by_cases hk : a.key = p
    · simp only [V3.find3, if_pos hk, Option.some.injEq] at h
      subst h
      exact ⟨List.mem_cons_self _ _, hk⟩
    · simp only [V3.find3, if_neg hk] at h
      obtain ⟨h1, h2⟩ := ih e h
      exact ⟨List.mem_cons_of_mem _ h1, h2⟩

theorem find3_unique {K V : Type} [DecidableEq K] (p : K) (l : List (Entry3 K V))
    (hnd : (l.map (fun e => e.key)).Nodup) (e : Entry3 K V) (hf : V3.find3 p l = some e) :
    ∀ e1 ∈ l, e1.key = p → e1 = e := by
  induction l with
  | nil => simp [V3.find3] at hf
  | cons a rest ih =>
    intro e1 he1 hk1
    have hnd2 : (rest.map (fun e => e.key)).Nodup := (List.nodup_cons.mp hnd).2
    have hanr : a.key ∉ rest.map (fun e => e.key) := (List.nodup_cons.mp hnd).1
    by_cases hk : a.key = p
    · simp only [V3.find3, if_pos hk, Option.some.injEq] at hf
      rcases List.mem_cons.mp he1 with h1 | h1
      · rw [h1, hf]
      · exact absurd (hk1.trans hk.symm ▸ List.mem_map_of_mem (fun e => e.key) h1) hanr
    · simp only [V3.find3, if_neg hk] at hf
      rcases List.mem_cons.mp he1 with h1 | h1
      · exact absurd (h1 ▸ hk1) hk
      · exact ih hnd2 hf e1 h1 hk1

/-- No entry stored under primary key `p` records an alias of lookup `n`. -/
def NoName {V : Type} (l : List (Entry3 Int (ResultV V))) (p : Int) (n : String) : Prop :=
  ∀ e ∈ l, e.key = p → ∀ k2 ∈ e.value.keys, k2.name ≠ n

theorem NoName_of_sub {V : Type} (l1 l2 : List (Entry3 Int (ResultV V))) (p : Int) (n : String)
    (hsub : ∀ e2 ∈ l2, ∃ e1 ∈ l1, e2.key = e1.key ∧ ∀ k2 ∈ e2.value.keys, k2 ∈ e1.value.keys)
    (h : NoName l1 p n) : NoName l2 p n := by
  intro e2 h2 hkey k2 hk2
  obtain ⟨e1, he1, hkeq, hksub⟩ := hsub e2 h2
  exact h e1 he1 (hkeq ▸ hkey) k2 (hksub k2 hk2)

theorem overwriteStep_same {V : Type} [DecidableEq V] (st : RC V) (k : CKey) :
    (ResultC.overwriteStep st k).next = st.next ∧
    (ResultC.overwriteStep st k).pkeys = st.pkeys ∧
    (ResultC.overwriteStep st k).cap = st.cap ∧
    (ResultC.overwriteStep st k).ttl = st.ttl := by
  unfold ResultC.overwriteStep
  split
  · exact ⟨rfl, rfl, rfl, rfl⟩
  · split
    · exact ⟨rfl, rfl, rfl, rfl⟩
    · split
      · exact ⟨rfl, rfl, rfl, rfl⟩
      · exact ⟨rfl, rfl, rfl, rfl⟩

theorem foldStep_same {V : Type} [DecidableEq V] (ks : List CKey) : ∀ st : RC V,
    (ks.foldl ResultC.overwriteStep st).next = st.next ∧
    (ks.foldl ResultC.overwriteStep st).pkeys = st.pkeys ∧
    (ks.foldl ResultC.overwriteStep st).cap = st.cap ∧
    (ks.foldl ResultC.overwriteStep st).ttl = st.ttl := by
  induction ks with
  | nil => intro st; exact ⟨rfl, rfl, rfl, rfl⟩
  | cons k rest ih =>
    intro st
    have h1 := overwriteStep_same st k
    have h2 := ih (ResultC.overwriteStep st k)
    simp only [List.foldl_cons]
    exact ⟨h2.1.trans h1.1, (h2.2.1).trans h1.2.1, (h2.2.2.1).trans h1.2.2.1,
      (h2.2.2.2).trans h1.2.2.2⟩

theorem overwriteStep_entries_sub {V : Type} [DecidableEq V] (st : RC V) (k : CKey) :
    ∀ e2 ∈ (ResultC.overwriteStep st k).entries,
      ∃ e1 ∈ st.entries, e2.key = e1.key ∧ ∀ k2 ∈ e2.value.keys, k2 ∈ e1.value.keys := by
  cases hp : ResultC.plookup st.pkeys k.name k.key with
  | none =>
    simp only [ResultC.overwriteStep, hp]
    intro e2 h2
    exact ⟨e2, h2, rfl, fun k2 hk2 => hk2⟩
  | some pkey =>
    cases hf : V3.find3 pkey st.entries with
    | none =>
      simp only [ResultC.overwriteStep, hp, hf]
      intro e2 h2
      exact ⟨e2, h2, rfl, fun k2 hk2 => hk2⟩
    | some e =>
      by_cases hdrop : ResultC.dropKeys k.name e.value.keys = []
      · simp only [ResultC.overwriteStep, hp, hf, if_pos hdrop]
        intro e2 h2
        exact ⟨e2, List.mem_of_mem_filter h2, rfl, fun k2 hk2 => hk2⟩
      · simp only [ResultC.overwriteStep, hp, hf, if_neg hdrop]
        intro e2 h2
        rw [List.mem_map] at h2
        obtain ⟨e1, he1, heq⟩ := h2
        by_cases hk1 : e1.key = pkey
        · rw [if_pos hk1] at heq
          refine ⟨e1, he1, ?_, ?_⟩
          · rw [← heq]
          · intro k2 hk2
            rw [← heq] at hk2
            rw [ResultC.dropKeys] at hk2
            exact List.mem_of_mem_filter hk2
        · rw [if_neg hk1] at heq
          exact ⟨e1, he1, by rw [← heq], by rw [← heq]; exact fun k2 hk2 => hk2⟩

theorem foldStep_entries_sub {V : Type} [DecidableEq V] (ks : List CKey) : ∀ st : RC V,
    ∀ e2 ∈ (ks.foldl ResultC.overwriteStep st).entries,
      ∃ e1 ∈ st.entries, e2.key = e1.key ∧ ∀ k2 ∈ e2.value.keys, k2 ∈ e1.value.keys := by
  induction ks with
  | nil => intro st e2 h2; exact ⟨e2, h2, rfl, fun k2 hk2 => hk2⟩
  | cons k rest ih =>
    intro st e2 h2
    simp only [List.foldl_cons] at h2
    obtain ⟨e1, he1, hkeq, hksub⟩ := ih (ResultC.overwriteStep st k) e2 h2
    obtain ⟨e0, he0, hkeq0, hksub0⟩ := overwriteStep_entries_sub st k e1 he1
    exact ⟨e0, he0, hkeq.trans hkeq0, fun k2 hk2 => hksub0 k2 (hksub k2 hk2)⟩

theorem overwriteStep_establish {V : Type} [DecidableEq V] (st : RC V) (k : CKey) (p2 : Int)
    (hp : ResultC.plookup st.pkeys k.name k.key = some p2) :
    NoName (ResultC.overwriteStep st k).entries p2 k.name := by
  cases hf : V3.find3 p2 st.entries with
  | none =>
    simp only [ResultC.overwriteStep, hp, hf]
    intro e2 h2 hkey _ _
    exact absurd hkey (find3_none p2 st.entries hf e2 h2)
  | some e =>
    by_cases hdrop : ResultC.dropKeys k.name e.value.keys = []
    · simp only [ResultC.overwriteStep, hp, hf, if_pos hdrop]
      intro e2 h2 hkey
      have hmf := (List.mem_filter.mp h2).2
      simp only [ne_eq, decide_not, Bool.not_eq_eq_eq_not, Bool.not_true,
        decide_eq_false_iff_not] at hmf
      exact absurd hkey hmf
    · simp only [ResultC.overwriteStep, hp, hf, if_neg hdrop]
      intro e2 h2 hkey k2 hk2
      rw [List.mem_map] at h2
      obtain ⟨e1, he1, heq⟩ := h2
      by_cases hk1 : e1.key = p2
      · rw [if_pos hk1] at heq
        rw [← heq] at hk2
        rw [ResultC.dropKeys] at hk2
        have := (List.mem_filter.mp hk2).2
        simpa using this
      · rw [if_neg hk1] at heq
        exact absurd (heq ▸ hkey) hk1

theorem fold_noname {V : Type} [DecidableEq V] (st : RC V) (ks : List CKey) (k : CKey) (p2 : Int)
    (hk : k ∈ ks) (hp : ResultC.plookup st.pkeys k.name k.key = some p2) :
    NoName (ks.foldl ResultC.overwriteStep st).entries p2 k.name := by
  obtain ⟨l1, l2, rfl⟩ := List.append_of_mem hk
  rw [List.foldl_append, List.foldl_cons]
  have hpk : (l1.foldl ResultC.overwriteStep st).pkeys = st.pkeys := (foldStep_same l1 st).2.1
  have hest := overwriteStep_establish (l1.foldl ResultC.overwriteStep st) k p2
    (by rw [ResultC.plookup, hpk]; exact hp)
  exact NoName_of_sub _ _ _ _
    (foldStep_entries_sub l2 (ResultC.overwriteStep (l1.foldl ResultC.overwriteStep st) k)) hest

theorem overwriteStep_preserves {V : Type} [DecidableEq V] (st : RC V) (k : CKey)
    (hnd : (st.entries.map (fun e => e.key)).Nodup)
    (hne : ∀ e ∈ st.entries, e.value.keys ≠ []) :
    ((ResultC.overwriteStep st k).entries.map (fun e => e.key)).Nodup ∧
    ∀ e ∈ (ResultC.overwriteStep st k).entries, e.value.keys ≠ [] := by
  cases hp : ResultC.plookup st.pkeys k.name k.key with
  | none => simp only [ResultC.overwriteStep, hp]; exact ⟨hnd, hne⟩
  | some pkey =>
    cases hf : V3.find3 pkey st.entries with
    | none => simp only [ResultC.overwriteStep, hp, hf]; exact ⟨hnd, hne⟩
    | some e =>
      by_cases hdrop : ResultC.dropKeys k.name e.value.keys = []
      · simp only [ResultC.overwriteStep, hp, hf, if_pos hdrop]
        constructor
        · exact ((List.filter_sublist _).map _).nodup hnd
        · intro e2 h2
          exact hne e2 (List.mem_of_mem_filter h2)
      · simp only [ResultC.overwriteStep, hp, hf, if_neg hdrop]
        constructor
        · have hcong :
              ((st.entries.map (fun e2 =>
                if e2.key = pkey then
                  { e2 with value := { e2.value with keys := ResultC.dropKeys k.name e2.value.keys } }
                else e2)).map (fun e => e.key)) = st.entries.map (fun e => e.key) := by
            rw [List.map_map]
            apply List.map_congr_left
            intro e1 _
            by_cases h : e1.key = pkey <;> simp [h]
          rw [hcong]
          exact hnd
        · intro e2 h2
          rw [List.mem_map] at h2
          obtain ⟨e1, he1, heq⟩ := h2
          by_cases hk1 : e1.key = pkey
          · rw [if_pos hk1] at heq
            have he1e : e1 = e := find3_unique pkey st.entries hnd e hf e1 he1 hk1
            rw [← heq]
            simpa [he1e] using hdrop
          · rw [if_neg hk1] at heq
            exact heq ▸ hne e1 he1

theorem foldStep_preserves {V : Type} [DecidableEq V] (ks : List CKey) : ∀ st : RC V,
    (st.entries.map (fun e => e.key)).Nodup →
    (∀ e ∈ st.entries, e.value.keys ≠ []) →
    ((ks.foldl ResultC.overwriteStep st).entries.map (fun e => e.key)).Nodup ∧
    ∀ e ∈ (ks.foldl ResultC.overwriteStep st).entries, e.value.keys ≠ [] := by
  induction ks with
  | nil => intro st hnd hne; exact ⟨hnd, hne⟩
  | cons k rest ih =>
    intro st hnd hne
    have h1 := overwriteStep_preserves st k hnd hne
    simpa only [List.foldl_cons] using ih (ResultC.overwriteStep st k) h1.1 h1.2

theorem setWithHook_entries {V : Type} [DecidableEq V] (st : RC V) (ent : Entry3 Int (ResultV V)) :
    ∀ e2 ∈ (ResultC.setWithHook st ent).1.entries, e2 = ent ∨ e2 ∈ st.entries := by
  intro e2 h2
  simp only [ResultC.setWithHook] at h2
  split at h2
  · split at h2
    · exact List.mem_cons.mp h2
    · simp only [ResultC.evictHookR] at h2
      exact List.mem_cons.mp ((List.dropLast_sublist _).subset h2)
  · exact List.mem_cons.mp h2

/-- C3: the overwrite protocol of `result.Cache.store`.  For every alias
of the inserted result that already points to an old primary key `p2`,
after the store no surviving entry under `p2` records an alias of that
lookup any more (so the old entry's later eviction cannot delete the
alias now owned by the new entry); and no old entry survives with an
empty alias set — an entry emptied by the overwrite loop is deleted
outright, the only possibly alias-less entry being the newly minted
one. -/
theorem C3_overwrite_protocol {V : Type} [DecidableEq V] (now : Instant) (st : RC V)
    (res : ResultV V)
    (hnext : ∀ nk p, alookup nk st.pkeys = some p → p < st.next)
    (hnd : (st.entries.map (fun e => e.key)).Nodup)
    (hne : ∀ e ∈ st.entries, e.value.keys ≠ []) :
    ∀ st2 evs, ResultC.storeR now st res = Except.ok (st2, evs) →
      (∀ k ∈ res.keys, ∀ p2, ResultC.plookup st.pkeys k.name k.key = some p2 →
        ∀ e2 ∈ st2.entries, e2.key = p2 → ∀ k2 ∈ e2.value.keys, k2.name ≠ k.name) ∧
      (∀ e2 ∈ st2.entries, e2.value.keys = [] → e2.key = st.next) := by
  intro st2 evs hstore
  simp only [ResultC.storeR] at hstore
  split at hstore
  · exact absurd hstore (by simp)
  · rename_i pkey next2 hmint
    rw [Except.ok.injEq] at hstore
    have hsame := foldStep_same (V := V) res.keys st
    have hpres := foldStep_preserves (V := V) res.keys st hnd hne
    have hpk : pkey = st.next := by
      have h1 := (mint_ok_inv _ pkey next2 hmint).1
      rw [h1, hsame.1]
    have hfst : _ = st2 := congrArg Prod.fst hstore
    have hmem : ∀ e2 ∈ st2.entries,
        e2.key = pkey ∨ e2 ∈ (res.keys.foldl ResultC.overwriteStep st).entries := by
      intro e2 h2
      rw [← hfst] at h2
      rcases setWithHook_entries _ _ e2 h2 with hE | hIn
      · left; rw [hE]
      · right; exact hIn
    constructor
    · intro k hk p2 hp2 e2 he2 hkey k2 hk2
      have hp2lt : p2 < st.next := hnext (k.name, k.key) p2 hp2
      rcases hmem e2 he2 with hE | hIn
      · rw [hkey] at hE
        rw [hpk] at hE
        exact absurd hE (by omega)
      · exact fold_noname st res.keys k p2 hk hp2 e2 hIn hkey k2 hk2
    · intro e2 he2 hkeys
      rcases hmem e2 he2 with hE | hIn
      · rw [hE, hpk]
      · exact absurd hkeys (hpres.2 e2 hIn)

/-- Helper for witnesses: Go-style success flag of an `Except`. -/
def isOkE {ε α : Type} : Except ε α → Bool
  | Except.ok _ => true
  | Except.error _ => false

/-- Concrete result-cache state: one entry under primary key `0`,
reachable through the single alias `("Field1", "Field1.a")`. -/
def c3st : RC Nat :=
  { entries := [{ key := 0, value := { keys := [{ name := "Field1", key := "Field1.a" }], value := 5, error := none }, expiry := 100 }],
    pkeys := [(("Field1", "Field1.a"), 0)],
    next := 1, cap := 10, ttl := 5 }

/-- A new result colliding with the only alias of the entry of `c3st`. -/
def c3res : ResultV Nat :=
  { keys := [{ name := "Field1", key := "Field1.a" }], value := 7, error := none }

/-- Witness for C3: storing `c3res` over `c3st` succeeds, and the
conclusions of the overwrite-protocol theorem hold there. -/
theorem C3_witness :
    ((c3st.entries.map (fun e => e.key)).Nodup ∧
      (∀ e ∈ c3st.entries, e.value.keys ≠ []) ∧
      isOkE (ResultC.storeR 0 c3st c3res) = true) ∧
    (∀ st2 evs, ResultC.storeR 0 c3st c3res = Except.ok (st2, evs) →
      (∀ k ∈ c3res.keys, ∀ p2, ResultC.plookup c3st.pkeys k.name k.key = some p2 →
        ∀ e2 ∈ st2.entries, e2.key = p2 → ∀ k2 ∈ e2.value.keys, k2.name ≠ k.name) ∧
      (∀ e2 ∈ st2.entries, e2.value.keys = [] → e2.key = c3st.next)) :=
  ⟨⟨by decide, by decide, by decide⟩,
   C3_overwrite_protocol 0 c3st c3res
     (by
       intro nk p h
       simp only [c3st, alookup] at h
       split at h
       · injection h with h1
         show p < (1 : Int)
         omega
       · exact absurd h (by simp))
     (by decide) (by decide)⟩

/-! ## Claims C4, C9, C10 -/

theorem overwriteStep_len {V : Type} [DecidableEq V] (st : RC V) (k : CKey) :
    (ResultC.overwriteStep st k).entries.length ≤ st.entries.length := by
  cases hp : ResultC.plookup st.pkeys k.name k.key with
  | none => simp [ResultC.overwriteStep, hp]
  | some pkey =>
    cases hf : V3.find3 pkey st.entries with
    | none => simp [ResultC.overwriteStep, hp, hf]
    | some e =>
      by_cases hdrop : ResultC.dropKeys k.name e.value.keys = []
      · simp only [ResultC.overwriteStep, hp, hf, if_pos hdrop]
        exact List.length_filter_le _ _
      · simp [ResultC.overwriteStep, hp, hf, if_neg hdrop]

theorem foldStep_len {V : Type} [DecidableEq V] (ks : List CKey) : ∀ st : RC V,
    (ks.foldl ResultC.overwriteStep st).entries.length ≤ st.entries.length := by
  induction ks with
  | nil => intro st; exact Nat.le_refl _
  | cons k rest ih =>
    intro st
    simp only [List.foldl_cons]
    exact (ih (ResultC.overwriteStep st k)).trans (overwriteStep_len st k)

/-- Evaluation of `store` on a cache with spare capacity and an
in-range counter: the overwrite loop runs, the entry is inserted as
youngest under the freshly minted key, every alias is registered, and no
capacity eviction fires. -/
theorem storeR_success {V : Type} [DecidableEq V] (now : Instant) (st : RC V) (res : ResultV V)
    (hcap : st.entries.length < st.cap)
    (hnx1 : ResultC.minI64 ≤ st.next) (hnx2 : st.next < ResultC.maxI64) :
    ResultC.storeR now st res =
      Except.ok
        ({ entries := { key := st.next, value := res, expiry := now + st.ttl } ::
             (res.keys.foldl ResultC.overwriteStep st).entries,
           pkeys := res.keys.foldl (fun m k => aset (k.name, k.key) st.next m)
             (res.keys.foldl ResultC.overwriteStep st).pkeys,
           next := st.next + 1, cap := st.cap, ttl := st.ttl }, []) := by
  have hsame := foldStep_same (V := V) res.keys st
  have hlen := foldStep_len (V := V) res.keys st
  have hm1 : ResultC.mint (res.keys.foldl ResultC.overwriteStep st).next =
      Except.ok (st.next, st.next + 1) := by
    rw [hsame.1]
    exact mint_ok st.next hnx1 hnx2
  simp only [ResultC.storeR, hm1, ResultC.setWithHook, List.length_cons]
  rw [hsame.2.2.1, hsame.2.2.2]
  rw [if_neg (by omega)]

/-- The state after negatively caching error `err` under the single
alias `(name, ckey)`. -/
def negCached {V : Type} [Inhabited V] (now : Instant) (st : RC V) (name ckey : String)
    (err : GoErr) : RC V :=
  { entries :=
      { key := st.next,
        value := { keys := [{ name := name, key := ckey }], value := default, error := some err },
        expiry := now + st.ttl } :: st.entries,
    pkeys := aset (name, ckey) st.next st.pkeys,
    next := st.next + 1, cap := st.cap, ttl := st.ttl }

/-- C4: negative caching of `Load`.  On a miss whose loader fails with
`err`: if the ignore predicate accepts `err` (`ignore err = true`)
nothing is cached and the error is returned; otherwise the error result
is cached under exactly one alias — the lookup and key the caller used —
and a subsequent `Load` on the same lookup and key parts returns the
cached error without invoking its loader.  The default ignore predicate
accepts exactly the context-canceled and deadline-exceeded errors. -/
theorem C4_negative_caching {V : Type} [DecidableEq V] [Inhabited V]
    (now now2 : Instant) (ignore ignore2 : GoErr → Bool) (copy copy2 : V → V)
    (genKeys genKeys2 : V → List CKey) (st : RC V) (name : String) (parts : List String)
    (err : GoErr) (loader2 : Except GoErr V)
    (hmiss : ResultC.plookup st.pkeys name (ResultC.genKey name parts) = none)
    (hcap : st.entries.length < st.cap)
    (hnx1 : ResultC.minI64 ≤ st.next) (hnx2 : st.next < ResultC.maxI64) :
    (∀ e2, ResultC.defaultIgnore e2 = true ↔ e2 = GoErr.canceled ∨ e2 = GoErr.deadlineExceeded) ∧
    (ignore err = true →
      ResultC.LoadR now ignore copy genKeys st name (ResultC.genKey name parts)
          (Except.error err) =
        Except.ok (Except.error err, st, true, [])) ∧
    (ignore err = false →
      ResultC.LoadR now ignore copy genKeys st name (ResultC.genKey name parts)
          (Except.error err) =
        Except.ok (Except.error err, negCached now st name (ResultC.genKey name parts) err, true, []) ∧
      ResultC.LoadR now2 ignore2 copy2 genKeys2
          (negCached now st name (ResultC.genKey name parts) err)
          name (ResultC.genKey name parts) loader2 =
        Except.ok (Except.error err, negCached now st name (ResultC.genKey name parts) err,
          false, [])) := by
  refine ⟨?_, ?_, ?_⟩
  · intro e2
    cases e2 <;> simp [ResultC.defaultIgnore]
  · intro hig
    simp [ResultC.LoadR, hmiss, hig]
  · intro hig
    have hfold :
        ([{ name := name, key := ResultC.genKey name parts }] : List CKey).foldl
          ResultC.overwriteStep st = st := by
      simp [List.foldl_cons, List.foldl_nil, ResultC.overwriteStep, hmiss]
    have hs := storeR_success now st
      { keys := [{ name := name, key := ResultC.genKey name parts }],
        value := (default : V), error := some err } hcap hnx1 hnx2
    rw [hfold] at hs
    constructor
    · simp only [ResultC.LoadR, hmiss, hig, Bool.false_eq_true, if_false, hs]
      simp [negCached, List.foldl_cons, List.foldl_nil]
    · have hpl : ResultC.plookup (negCached now st name (ResultC.genKey name parts) err).pkeys
          name (ResultC.genKey name parts) = some st.next := by
        simp [negCached, ResultC.plookup, alookup_aset_self]
      simp only [ResultC.LoadR, hpl]
      simp [negCached, V3.find3]

/-- An empty result cache over `Nat` values. -/
def c4st : RC Nat := { entries := [], pkeys := [], next := 0, cap := 4, ttl := 50 }

/-- Witness for C4 at the empty cache with a non-ignored loader error. -/
theorem C4_witness :
    (ResultC.plookup c4st.pkeys "F" (ResultC.genKey "F" ["x"]) = none ∧
      c4st.entries.length < c4st.cap ∧
      ResultC.minI64 ≤ c4st.next ∧ c4st.next < ResultC.maxI64 ∧
      ResultC.defaultIgnore (GoErr.other "boom") = false) ∧
    ((∀ e2, ResultC.defaultIgnore e2 = true ↔ e2 = GoErr.canceled ∨ e2 = GoErr.deadlineExceeded) ∧
     (ResultC.defaultIgnore (GoErr.other "boom") = true →
       ResultC.LoadR 0 ResultC.defaultIgnore id (fun _ => []) c4st "F" (ResultC.genKey "F" ["x"])
           (Except.error (GoErr.other "boom")) =
         Except.ok (Except.error (GoErr.other "boom"), c4st, true, [])) ∧
     (ResultC.defaultIgnore (GoErr.other "boom") = false →
       ResultC.LoadR 0 ResultC.defaultIgnore id (fun _ => []) c4st "F" (ResultC.genKey "F" ["x"])
           (Except.error (GoErr.other "boom")) =
         Except.ok (Except.error (GoErr.other "boom"),
           negCached 0 c4st "F" (ResultC.genKey "F" ["x"]) (GoErr.other "boom"), true, []) ∧
       ResultC.LoadR 11 ResultC.defaultIgnore id (fun _ => [])
           (negCached 0 c4st "F" (ResultC.genKey "F" ["x"]) (GoErr.other "boom"))
           "F" (ResultC.genKey "F" ["x"]) (Except.ok 9) =
         Except.ok (Except.error (GoErr.other "boom"),
           negCached 0 c4st "F" (ResultC.genKey "F" ["x"]) (GoErr.other "boom"), false, []))) :=
  ⟨⟨by decide, by decide, by decide, by decide, by decide⟩,
   C4_negative_caching 0 11 ResultC.defaultIgnore ResultC.defaultIgnore id id
     (fun _ => []) (fun _ => []) c4st "F" ["x"] (GoErr.other "boom") (Except.ok 9)
     (by decide) (by decide) (by decide) (by decide)⟩

/-- C9: `Has` reports `false` for a cached negative (error) result even
though `Load` on the same lookup and key returns that cached error
without invoking the loader, and `Has` reports `true` only when the
entry reached through the lookup holds a non-error result. -/
theorem C9_has_skips_negative {V : Type} [DecidableEq V] [Inhabited V]
    (st : RC V) (name ckey : String) (p : Int) (e : Entry3 Int (ResultV V)) (err : GoErr)
    (h1 : ResultC.plookup st.pkeys name ckey = some p)
    (h2 : V3.find3 p st.entries = some e)
    (h3 : e.value.error = some err)
    (now : Instant) (ignore : GoErr → Bool) (copy : V → V) (genKeys : V → List CKey)
    (loader : Except GoErr V) :
    ResultC.HasR st name ckey = Except.ok false ∧
    ResultC.LoadR now ignore copy genKeys st name ckey loader =
      Except.ok (Except.error err, st, false, []) ∧
    (∀ (st2 : RC V) (n2 c2 : String), ResultC.HasR st2 n2 c2 = Except.ok true →
      ∃ p2 e2, ResultC.plookup st2.pkeys n2 c2 = some p2 ∧
        V3.find3 p2 st2.entries = some e2 ∧ e2.value.error = none) := by
  refine ⟨?_, ?_, ?_⟩
  · simp [ResultC.HasR, h1, h2, h3]
  · simp [ResultC.LoadR, h1, h2, h3]
  · intro st2 n2 c2 hh
    simp only [ResultC.HasR] at hh
    split at hh
    · exact absurd hh (by simp)
    · rename_i p2 hp2
      split at hh
      · exact absurd hh (by simp)
      · rename_i e2 he2
        refine ⟨p2, e2, hp2, he2, ?_⟩
        injection hh with hh1
        exact Option.isNone_iff_eq_none.mp hh1

/-- A result cache holding one negatively cached error under the alias
`("F", "F.x")`. -/
def c9st : RC Nat :=
  { entries :=
      [{ key := 0,
         value := { keys := [{ name := "F", key := "F.x" }], value := 0,
                    error := some (GoErr.other "nope") },
         expiry := 100 }],
    pkeys := [(("F", "F.x"), 0)],
    next := 1, cap := 4, ttl := 50 }

/-- Witness for C9 at the negatively cached state. -/
theorem C9_witness :
    (ResultC.plookup c9st.pkeys "F" "F.x" = some 0 ∧
      V3.find3 0 c9st.entries =
        some { key := 0,
               value := { keys := [{ name := "F", key := "F.x" }], value := 0,
                          error := some (GoErr.other "nope") },
               expiry := 100 }) ∧
    (ResultC.HasR c9st "F" "F.x" = Except.ok false ∧
     ResultC.LoadR 0 ResultC.defaultIgnore id (fun _ => []) c9st "F" "F.x" (Except.ok 3) =
       Except.ok (Except.error (GoErr.other "nope"), c9st, false, []) ∧
     (∀ (st2 : RC Nat) (n2 c2 : String), ResultC.HasR st2 n2 c2 = Except.ok true →
       ∃ p2 e2, ResultC.plookup st2.pkeys n2 c2 = some p2 ∧
         V3.find3 p2 st2.entries = some e2 ∧ e2.value.error = none)) :=
  ⟨⟨by decide, by decide⟩,
   C9_has_skips_negative c9st "F" "F.x" 0
     { key := 0,
       value := { keys := [{ name := "F", key := "F.x" }], value := 0,
                  error := some (GoErr.other "nope") },
       expiry := 100 }
     (GoErr.other "nope") (by decide) (by decide) (by decide)
     0 ResultC.defaultIgnore id (fun _ => []) (Except.ok 3)⟩

/-- The state reached by a successful `Store(v, persist)`: the copied
value cached as the youngest entry under the freshly minted key, with
the generated aliases registered. -/
def storedState {V : Type} [DecidableEq V] (now : Instant) (copy : V → V)
    (genKeys : V → List CKey) (st : RC V) (v : V) : RC V :=
  { entries :=
      { key := st.next,
        value := { keys := genKeys v, value := copy v, error := none },
        expiry := now + st.ttl } :: ((genKeys v).foldl ResultC.overwriteStep st).entries,
    pkeys := (genKeys v).foldl (fun m k => aset (k.name, k.key) st.next m)
      ((genKeys v).foldl ResultC.overwriteStep st).pkeys,
    next := st.next + 1, cap := st.cap, ttl := st.ttl }

/-- C10: `Store` applies the user copy function to the value at store
time, before insertion — the cached entry holds `copy v`, not `v` — so
later mutation of the caller's value cannot reach the cache; and when
the persist action fails its error is returned unchanged with nothing
cached and no hook fired. -/
theorem C10_store_copy_persist {V : Type} [DecidableEq V]
    (now : Instant) (copy : V → V) (genKeys : V → List CKey) (st : RC V) (v : V) (err : GoErr)
    (hcap : st.entries.length < st.cap)
    (hnx1 : ResultC.minI64 ≤ st.next) (hnx2 : st.next < ResultC.maxI64) :
    ResultC.StoreUser now copy genKeys st v (some err) = Except.ok (some err, st, []) ∧
    (∃ st2, ResultC.StoreUser now copy genKeys st v none =
        Except.ok (none, st2, [ResultC.REv.invalid v]) ∧
      st2.entries.head? =
        some { key := st.next,
               value := { keys := genKeys v, value := copy v, error := none },
               expiry := now + st.ttl }) := by
  constructor
  · rfl
  · have hs := storeR_success now st
      { keys := genKeys v, value := copy v, error := none } hcap hnx1 hnx2
    refine ⟨storedState now copy genKeys st v, ?_, ?_⟩
    · simp only [ResultC.StoreUser, hs, storedState]
      simp
    · simp [storedState]

/-- Witness for C10 at the empty cache. -/
theorem C10_witness :
    (c4st.entries.length < c4st.cap ∧
      ResultC.minI64 ≤ c4st.next ∧ c4st.next < ResultC.maxI64) ∧
    (ResultC.StoreUser 0 (fun x => x + 1) (fun _ => [{ name := "F", key := "F.v" }]) c4st 5
        (some (GoErr.other "db down")) =
      Except.ok (some (GoErr.other "db down"), c4st, []) ∧
     (∃ st2, ResultC.StoreUser 0 (fun x => x + 1) (fun _ => [{ name := "F", key := "F.v" }])
          c4st 5 none =
        Except.ok (none, st2, [ResultC.REv.invalid 5]) ∧
      st2.entries.head? =
        some { key := c4st.next,
               value := { keys := [{ name := "F", key := "F.v" }], value := 5 + 1, error := none },
               expiry := 0 + c4st.ttl })) :=
  ⟨⟨by decide, by decide, by decide⟩,
   C10_store_copy_persist 0 (fun x => x + 1) (fun _ => [{ name := "F", key := "F.v" }])
     c4st 5 (GoErr.other "db down") (by decide) (by decide) (by decide)⟩
